import Mathlib

/-!
Shallow embedding of the gopkg2nix-incremental package build driver
(`builder/package.go`, `builder/compile.go`, `builder/link.go`,
`builder/context.go` and the SDK handle), together with proofs about
the import-scanning, metadata, trim-path, argument-assembly, parallelism and
version-parsing logic.

Go maps with string keys are modelled as association lists (`SMap`) whose
operations mirror Go map semantics (assignment overwrites, lookup of a
missing key yields the zero value `""`).  Filesystem reads are modelled as
oracle functions returning `Option` (`none` models an I/O or decode error).
`filepath.Base` / `filepath.Dir` are modelled for clean, slash-separated
paths (no trailing slashes, no `.`/`..` segments), which covers every path
the theorems below touch.
-/

set_option maxHeartbeats 1000000

namespace GoPkg2Nix

/-- An import binding, `type Import struct { StorePath, ImportPath string }`
from `builder/package.go`. -/
structure Import where
  StorePath : String
  ImportPath : String
deriving DecidableEq

/-- Package metadata, `type Package struct { ImportPath string; Imports
[]string; Deps []string }` from `builder/package.go`.  `ImportPath` is
stamped by `LoadMetadata`, not read from the sidecar. -/
structure Package where
  ImportPath : String
  Imports : List String
  Deps : List String
deriving DecidableEq

/-- Meta-package metadata, `type MetaPackage struct { ImportPath string;
SubPackages []Import; ImportMap map[string]string }`. -/
structure MetaPackage where
  ImportPath : String
  SubPackages : List Import
  ImportMap : List (String × String)
deriving DecidableEq

/-- Go's lexicographic string order `strings.Compare(a, b) < 0`, modelled
on the character list (identical to the byte order for ASCII paths). -/
def strLt (a b : String) : Prop := a.data < b.data

/-- Go's `strings.Compare(a, b) <= 0` on the character list. -/
def strLe (a b : String) : Prop := a.data ≤ b.data

instance (a b : String) : Decidable (strLt a b) :=
  inferInstanceAs (Decidable (a.data < b.data))

instance (a b : String) : Decidable (strLe a b) :=
  inferInstanceAs (Decidable (a.data ≤ b.data))

/-- A Go `map[string]string`, modelled as an association list with unique
keys maintained by the operations below. -/
abbrev SMap := List (String × String)

/-- Lookup in a Go string map: `m[k]` together with the comma-ok presence
bit, i.e. `some v` iff the key is present. -/
def smapFind (m : SMap) (k : String) : Option String :=
  (m.find? (fun kv => kv.1 == k)).map (·.2)

/-- Go `m[k]` without comma-ok: a missing key yields the zero value `""`. -/
def smapGet (m : SMap) (k : String) : String :=
  (smapFind m k).getD ""

/-- Go `_, ok := m[k]` presence test. -/
def smapHas (m : SMap) (k : String) : Bool :=
  (smapFind m k).isSome

/-- Go map assignment `m[k] = v` (overwrites an existing binding). -/
def smapInsert (m : SMap) (k v : String) : SMap :=
  (m.filter (fun kv => kv.1 ≠ k)) ++ [(k, v)]

/-- Go `delete(m, k)`. -/
def smapErase (m : SMap) (k : String) : SMap :=
  m.filter (fun kv => kv.1 ≠ k)

/-- Go `maps.Copy(dst, src)`: every binding of `src` is written into `dst`,
overwriting bindings `dst` already had for the same key. -/
def mapsCopy (dst src : SMap) : SMap :=
  src.foldl (fun d kv => smapInsert d kv.1 kv.2) dst

/-! ## Meta-package resolution (`ResolveMetaPackages`, builder/package.go) -/

/-- `MetaPackages = []string{"std"}` from `builder/package.go`. -/
def metaPackages : List String := ["std"]

/-- The sub-package merge loop of `ResolveMetaPackages`: each sub-package is
added only when its import path is not already bound
(`if _, ok := pkgs[subPkg.ImportPath]; !ok`). -/
def subFold : List Import → SMap → SMap
  | [], m => m
  | sub :: rest, m =>
      subFold rest
        (if smapHas m sub.ImportPath then m else smapInsert m sub.ImportPath sub.StorePath)

/-- One iteration of the `for _, importPath := range MetaPackages` loop in
`ResolveMetaPackages`.  `metaEnv storePath importPath` models opening and
decoding `<storePath>/<basename(importPath)>.json` (`none` = error).  The
caller-supplied import map is `Option`al to model a `nil` Go map (the
`importMap != nil` guard). -/
def resolveMeta1 (metaEnv : String → String → Option MetaPackage)
    (st : SMap × Option SMap) (importPath : String) : Option (SMap × Option SMap) :=
  if smapGet st.1 importPath = "" then some st
  else
    match metaEnv (smapGet st.1 importPath) importPath with
    | none => none
    | some pkg =>
        some (subFold pkg.SubPackages (smapErase st.1 importPath),
          st.2.map (fun im => mapsCopy im pkg.ImportMap))

/-- `ResolveMetaPackages(pkgs, importMap)` from `builder/package.go`,
returning the two maps after in-place mutation. -/
def ResolveMetaPackages (metaEnv : String → String → Option MetaPackage)
    (pkgs : SMap) (importMap : Option SMap) : Option (SMap × Option SMap) :=
  metaPackages.foldlM (resolveMeta1 metaEnv) (pkgs, importMap)

/-- Meta-package sidecar oracle used for the C2 refutation: the store path
`"S"` holds a `std` meta-package whose import map binds `a ↦ y`. -/
def metaEnvC2 : String → String → Option MetaPackage :=
  fun sp ip =>
    if sp = "S" ∧ ip = "std" then some ⟨"std", [], [("a", "y")]⟩ else none

/-- Meta-package sidecar oracle for the C8 witness (the spec's P5 example):
`std` at store path `"S"` declares sub-packages `fmt ↦ F2` and `io ↦ I`. -/
def metaEnvC8 : String → String → Option MetaPackage :=
  fun sp ip =>
    if sp = "S" ∧ ip = "std" then
      some ⟨"std", [⟨"F2", "fmt"⟩, ⟨"I", "io"⟩], []⟩
    else none

/-! ## Import scanning (`ScanImports`, builder/package.go) -/

/-- `FilterInternalPackages` from `builder/package.go`: compiler-intrinsic
pseudo-imports dropped from all output. -/
def FilterInternalPackages (importPath : String) : Bool :=
  importPath == "runtime/cgo" || importPath == "unsafe"

/-- The import path after the import-map rewrite step of `ScanImports`:
`if truePath := importMap[importPath]; truePath != "" { importPath = truePath }`. -/
def canonOf (importMap : SMap) (importPath : String) : String :=
  if smapGet importMap importPath ≠ "" then smapGet importMap importPath else importPath

/-- The loop state of `ScanImports`: the `found` dedup set and the two
output slices. -/
structure ScanSt where
  found : List String
  imports : List Import
  rewrites : List Import
deriving DecidableEq

/-- The body of the inner `for _, importPath := range fileImports` loop of
`ScanImports` (`none` models returning an `ImportError`). -/
def scanOne (pkgs importMap : SMap) (st : ScanSt) (importPath : String) : Option ScanSt :=
  if importPath ∈ st.found then some st
  else if FilterInternalPackages importPath then
    some ⟨importPath :: st.found, st.imports, st.rewrites⟩
  else
    match smapFind pkgs (canonOf importMap importPath) with
    | some storePath =>
        some ⟨importPath :: st.found,
          st.imports ++ [⟨storePath, canonOf importMap importPath⟩],
          if smapGet importMap importPath ≠ "" then
            st.rewrites ++ [⟨smapGet importMap importPath, importPath⟩]
          else st.rewrites⟩
    | none => none

/-- One source file's contribution to the scan: the inner loop of
`ScanImports` over the file's import list (`listFileImports` already
applied). -/
def scanFile (pkgs importMap : SMap) : ScanSt → List String → Option ScanSt
  | st, [] => some st
  | st, importPath :: rest =>
      match scanOne pkgs importMap st importPath with
      | none => none
      | some st1 => scanFile pkgs importMap st1 rest

/-- The outer `for _, path := range srcs` loop of `ScanImports`.
`fileEnv path` models `listFileImports(path)` (`none` = I/O or parse
error). -/
def scanSrcs (fileEnv : String → Option (List String)) (pkgs importMap : SMap) :
    ScanSt → List String → Option ScanSt
  | st, [] => some st
  | st, path :: rest =>
      match fileEnv path with
      | none => none
      | some fileImports =>
          match scanFile pkgs importMap st fileImports with
          | none => none
          | some st1 => scanSrcs fileEnv pkgs importMap st1 rest

/-- `SortImports` from `builder/package.go`: sort lexicographically
by import path.  `slices.SortFunc` is an unstable sort, but elements with
equal import paths produced by `ScanImports` are fully equal, so a stable
sort yields the identical slice. -/
def sortImportsL (l : List Import) : List Import :=
  l.insertionSort (fun a b => strLe a.ImportPath b.ImportPath)

/-- `ScanImports(srcs, pkgs, importMap)` from `builder/package.go`:
scan every source file, then sort both output slices.  Returns the sorted
`(imports, rewrites)` pair. -/
def ScanImports (fileEnv : String → Option (List String)) (srcs : List String)
    (pkgs importMap : SMap) : Option (List Import × List Import) :=
  match scanSrcs fileEnv pkgs importMap ⟨[], [], []⟩ srcs with
  | none => none
  | some st => some (sortImportsL st.imports, sortImportsL st.rewrites)

/-- The source-level import paths `ScanImports` scans: every path that
occurs in the import list of one of the scanned source files. -/
def ScannedPath (fileEnv : String → Option (List String)) (srcs : List String)
    (p : String) : Prop :=
  ∃ src ∈ srcs, ∃ fis, fileEnv src = some fis ∧ p ∈ fis

/-- Invariant of the `ScanImports` loop state, relative to a predicate `P`
covering every path the scan may encounter: seen paths satisfy `P`, every
emitted import is the rewrite of some already-seen source-level import
path, rewrite entries are keyed by already-seen paths, rewrite keys are
distinct, and — whenever the rewrite step is injective on `P` —
emitted import keys are distinct. -/
def ScanInv (importMap : SMap) (P : String → Prop) (st : ScanSt) : Prop :=
  (∀ x ∈ st.found, P x) ∧
  (∀ i ∈ st.imports, ∃ p ∈ st.found, i.ImportPath = canonOf importMap p) ∧
  (∀ r ∈ st.rewrites, r.ImportPath ∈ st.found) ∧
  (st.rewrites.map (·.ImportPath)).Nodup ∧
  ((∀ p q, P p → P q → canonOf importMap p = canonOf importMap q → p = q) →
    (st.imports.map (·.ImportPath)).Nodup)

/-- File-imports oracle for the C3 refutation: one source file importing
two distinct paths `p1`, `p2`. -/
def fileEnvC3 : String → Option (List String) :=
  fun path => if path = "a.go" then some ["p1", "p2"] else none

/-- File-imports oracle for the C3 witness: one source file importing
`fmt` and `abc` (the witness pairs it with the rewrite map
`{fmt ↦ zfmt}`, which is injective on those two scanned paths but not on
all strings). -/
def fileEnvSortedW : String → Option (List String) :=
  fun path => if path = "w.go" then some ["fmt", "abc"] else none

/-! ## Dependency closure (`Compilation.Deps`, builder/compile.go) -/

/-- `slices.Sorted(maps.Keys(m))` for a key set represented as a list of
distinct keys: sort lexicographically. -/
def sortStrings (l : List String) : List String :=
  l.insertionSort strLe

/-- Go `set[k] = struct{}{}` on a key set represented as a duplicate-free
list. -/
def setInsert (s : List String) (k : String) : List String :=
  if k ∈ s then s else s ++ [k]

/-- Outcome of `Compilation.Deps()`: the explicit `panic` when
`c.imports == nil`, a `MetadataError` from `LoadMetadata`, or the
`(imports, deps)` pair. -/
inductive DepsOut where
  | panics
  | fail
  | ok (imports : List String) (deps : List String)
deriving DecidableEq

/-- The `for _, dep := range c.imports` loop of `Compilation.Deps`.
`pkgEnv storePath importPath` models
`LoadMetadata[Package](dep.StorePath, dep.ImportPath)` (`none` = error). -/
def depsLoop (pkgEnv : String → String → Option Package) :
    List Import → List String → List String → Option (List String × List String)
  | [], imports, deps => some (imports, deps)
  | d :: rest, imports, deps =>
      match pkgEnv d.StorePath d.ImportPath with
      | none => none
      | some pkg =>
          depsLoop pkgEnv rest (imports ++ [d.ImportPath])
            (pkg.Deps.foldl setInsert (setInsert deps d.ImportPath))

/-- `Compilation.Deps()` from `builder/compile.go`.  The `c.imports` field
is `Option`al: `none` models the `nil` slice before `CompilePackage` has
run, triggering the `panic`. -/
def compilationDeps (pkgEnv : String → String → Option Package)
    (cImports : Option (List Import)) : DepsOut :=
  match cImports with
  | none => .panics
  | some imps =>
      match depsLoop pkgEnv imps [] [] with
      | none => .fail
      | some (il, ds) => .ok il (sortStrings ds)

/-- `compileImportCfg` from `builder/compile.go` up to its import list:
resolve meta-packages, then scan (the importcfg file write is pure
serialization of the result). -/
def compileImportCfgM (metaEnv : String → String → Option MetaPackage)
    (fileEnv : String → Option (List String)) (goSrcs : List String)
    (deps : SMap) (importMap : Option SMap) : Option (List Import × List Import) :=
  match ResolveMetaPackages metaEnv deps importMap with
  | none => none
  | some (deps2, im2) => ScanImports fileEnv goSrcs deps2 (im2.getD [])

/-- Effect of `Compilation.CompilePackage` on the `c.imports` field,
paired with its success bit.  `toolOk` abstracts the compiler, assembler
and archiver sub-processes and the remaining I/O: on an importcfg failure
`c.imports` stays `nil`, otherwise it is set before any tool runs. -/
def compilePackageModel (metaEnv : String → String → Option MetaPackage)
    (fileEnv : String → Option (List String)) (goSrcs : List String)
    (deps : SMap) (importMap : Option SMap) (toolOk : Bool) :
    Option (List Import) × Bool :=
  match compileImportCfgM metaEnv fileEnv goSrcs deps importMap with
  | none => (none, false)
  | some (imps, _) => (some imps, toolOk)

/-- Sidecar oracle for the C1 witness: package `a` at store path `SA` has
transitive deps `["z"]`; package `b` at `SB` has none. -/
def pkgEnvC1 : String → String → Option Package :=
  fun sp ip =>
    if sp = "SA" ∧ ip = "a" then some ⟨"a", [], ["z"]⟩
    else if sp = "SB" ∧ ip = "b" then some ⟨"b", [], []⟩
    else none

/-! ## Trim path (`packageTrimPath` and `CompilePackage`, builder/compile.go) -/

/-- `filepath.Dir`, modelled for clean slash-separated paths (no trailing
slashes, no `.`/`..` segments): everything before the last `/`, `"."` when
there is none, `"/"` for a file at the root. -/
def dirOf (p : String) : String :=
  match (p.data.splitOn '/').dropLast with
  | [] => "."
  | parts =>
      if parts = [[]] then "/"
      else String.mk (List.intercalate ['/'] parts)

/-- The `for _, src := range srcs` loop of `packageTrimPath`: the running
`srcPaths` set (as a first-occurrence list) and the `strings.Builder`. -/
def trimPathLoop (importPath : String) : List String → List String → String →
    List String × String
  | [], seen, acc => (seen, acc)
  | src :: rest, seen, acc =>
      if dirOf src ∈ seen then trimPathLoop importPath rest seen acc
      else
        trimPathLoop importPath rest (seen ++ [dirOf src])
          (acc ++ dirOf src ++ "=>" ++ importPath ++ ";")

/-- `packageTrimPath(srcs, importPath, out)` from `builder/compile.go`. -/
def packageTrimPath (srcs : List String) (importPath out : String) : String :=
  (trimPathLoop importPath srcs [] "").2 ++ out ++ "=>"

/-- The complete `-trimpath` value handed to the compiler by
`CompilePackage`: `packageTrimPath` plus, when assembly sources are
present, `";<buildDir>=>"` appended at the end. -/
def trimPathArg (srcs : List String) (importPath out buildDir : String)
    (hasAsm : Bool) : String :=
  if hasAsm then packageTrimPath srcs importPath out ++ ";" ++ buildDir ++ "=>"
  else packageTrimPath srcs importPath out

/-- The distinct source directories in first-occurrence order, starting
from an already-seen set. -/
def newDirs : List String → List String → List String
  | [], _ => []
  | src :: rest, seen =>
      if dirOf src ∈ seen then newDirs rest seen
      else dirOf src :: newDirs rest (seen ++ [dirOf src])

/-- The `<dir>=><importPath>;` entries of a trim path. -/
def trimEntries (importPath : String) : List String → String
  | [] => ""
  | d :: rest => d ++ "=>" ++ importPath ++ ";" ++ trimEntries importPath rest

/-! ## Compiler argument vector (`CompilePackage`, builder/compile.go) -/

/-- `hasForwardDecl` from `builder/compile.go`: the hard-coded allowlist of
standard packages with forward declarations realized in assembly. -/
def hasForwardDecl (importPath : String) : Bool :=
  importPath == "bytes" || importPath == "internal/poll" || importPath == "net" ||
  importPath == "os" || importPath == "runtime/metrics" ||
  importPath == "runtime/pprof" || importPath == "runtime/trace" ||
  importPath == "sync" || importPath == "syscall" || importPath == "time"

/-- The allowlist exactly as the spec enumerates it (spec §4.7 step 4). -/
def specForwardDeclList : List String :=
  ["bytes", "internal/poll", "net", "os", "runtime/metrics",
    "runtime/pprof", "runtime/trace", "sync", "syscall", "time"]

/-- The argument vector built by `CompilePackage` after the tool binary and
the passthrough `extraArgs` (= `compileFlags`): the fixed flags, then the
assembly/`-complete` alternative, then the optional `-embedcfg`, then the
trailing flags and the native sources. -/
def compileArgs (extraArgs : List String)
    (exportData obj trimPath importPath compatVersion : String)
    (sSrcs : List String) (symabis asmHeader : String) (embedCfg : Option String)
    (parallelism importCfg : String) (goSrcs : List String) : List String :=
  extraArgs
    ++ ["-o", exportData, "-linkobj", obj, "-trimpath", trimPath, "-p", importPath,
        "-lang", compatVersion]
    ++ (if sSrcs.length > 0 then ["-symabis", symabis, "-asmhdr", asmHeader]
        else if hasForwardDecl importPath then [] else ["-complete"])
    ++ (match embedCfg with
        | some path => ["-embedcfg", path]
        | none => [])
    ++ ["-c", parallelism, "-nolocalimports", "-importcfg", importCfg, "-pack", "--"]
    ++ goSrcs

/-! ## Parallelism (`BuildParallelism`, builder/context.go) -/

/-- Decimal digit accumulation as in `strconv.ParseUint` (base 10). -/
def decValue (ds : List Char) : Nat :=
  ds.foldl (fun a c => a * 10 + (c.toNat - 48)) 0

/-- The signed value of a digit run under an optional leading sign
character. -/
def signedVal (c : Char) (ds : List Char) : Int :=
  if c = '-' then -(decValue ds : Int) else (decValue ds : Int)

/-- `strconv.ParseInt(s, 10, 32)` on the character list: optional sign,
non-empty decimal digit run, value range-checked against the signed 32-bit
bounds (`none` = any parse error). -/
def parseIntChars : List Char → Option Int
  | [] => none
  | c :: cs =>
      if c = '-' ∨ c = '+' then
        if cs = [] then none
        else if cs.all (fun d => d.isDigit) then
          if -(2 ^ 31) ≤ signedVal c cs ∧ signedVal c cs ≤ 2 ^ 31 - 1 then
            some (signedVal c cs)
          else none
        else none
      else
        if (c :: cs).all (fun d => d.isDigit) then
          if -(2 ^ 31) ≤ (decValue (c :: cs) : Int)
              ∧ (decValue (c :: cs) : Int) ≤ 2 ^ 31 - 1 then
            some (decValue (c :: cs))
          else none
        else none

/-- `strconv.ParseInt(s, 10, 32)` (`none` = parse error, which
`BuildParallelism` turns into `log.Fatalf`). -/
def goParseInt32 (s : String) : Option Int :=
  parseIntChars s.data

/-- `BuildParallelism` from `builder/context.go`.  `numCPU` models
`runtime.NumCPU()`; the argument string models `$NIX_BUILD_CORES`;
`none` models `log.Fatalf`. -/
def BuildParallelism (numCPU : Int) (cores : String) : Option Int :=
  if cores = "" then some 1
  else if cores = "0" then some numCPU
  else goParseInt32 cores

/-- The amended claim's reading of the default branch: an optionally
signed, non-empty decimal numeral whose value fits in signed 32 bits,
evaluating to `v` (negative and zero values included). -/
def IsInt32Numeral (s : String) (v : Int) : Prop :=
  ((∃ ds, (s.data = ds ∨ s.data = '+' :: ds) ∧ ds ≠ []
      ∧ (∀ c ∈ ds, c.isDigit = true) ∧ v = (decValue ds : Int))
    ∨ (∃ ds, s.data = '-' :: ds ∧ ds ≠ []
      ∧ (∀ c ∈ ds, c.isDigit = true) ∧ v = -(decValue ds : Int)))
  ∧ -(2 ^ 31) ≤ v ∧ v ≤ 2 ^ 31 - 1

/-! ## Toolchain version (`GoSDK.compilerVersion`, SDK handle) -/

/-- Outcome of `compilerVersion`: the parsed version, the structured
"malformed output" error, or an index-out-of-range panic. -/
inductive CVOut where
  | ok (version : String)
  | err
  | panics
deriving DecidableEq

/-- `strings.Fields`: split around runs of whitespace (ASCII subset, which
covers `go version` output). -/
def fieldsAux : List Char → List Char → List String
  | [], acc => if acc = [] then [] else [String.mk acc.reverse]
  | c :: cs, acc =>
      if c = ' ' ∨ c = '\t' ∨ c = '\n' ∨ c = '\r' then
        if acc = [] then fieldsAux cs []
        else String.mk acc.reverse :: fieldsAux cs []
      else fieldsAux cs (c :: acc)

/-- `strings.Fields(info)`. -/
def goFields (s : String) : List String := fieldsAux s.data []

/-- `strings.CutPrefix(s, "go")` (the used value; the boolean is ignored
by the caller): drop a leading `go`, else return the string unchanged. -/
def cutGo (s : String) : String :=
  match s.data with
  | 'g' :: 'o' :: rest => String.mk rest
  | _ => s

/-- `GoSDK.compilerVersion` on the combined output of `go version`.  The
guard in the source is `if len(fields) < 3 && fields[0] != "go" &&
fields[1] != "version"`, with short-circuit `&&` evaluation; each indexing
expression panics when out of range, modelled branch by branch. -/
def compilerVersion (info : String) : CVOut :=
  if (goFields info).length < 3 then
    match goFields info with
    | [] => .panics
    | f0 :: rest =>
        if f0 = "go" then .panics
        else
          match rest with
          | [] => .panics
          | f1 :: _ => if f1 = "version" then .panics else .err
  else
    .ok (cutGo ((goFields info).getD 2 ""))

/-! ## Link driver (`linkImportCfg` and `Linkage.LinkPackage`, builder/link.go) -/

/-- `filepath.Base`, modelled for non-empty paths without trailing
slashes: everything after the last `/`. -/
def baseOf (p : String) : String :=
  String.mk ((p.data.splitOn '/').getLastD [])

/-- The `for _, importPath := range main.Deps` loop of `linkImportCfg`:
resolve each transitive dep against the deps table, failing with an
`ImportError` when absent or empty. -/
def linkDepsLoop (deps : SMap) : List String → List Import → Option (List Import)
  | [], acc => some acc
  | ip :: rest, acc =>
      if smapGet deps ip = "" then none
      else linkDepsLoop deps rest (acc ++ [⟨smapGet deps ip, ip⟩])

/-- `linkImportCfg(main, mainPath, deps)` from `builder/link.go`, up to the
sorted entry list it serializes (meta-packages resolved with a
`nil` import map, then each of `main.Deps` resolved, then the sentinel entry
appended and the whole list sorted). -/
def linkImportCfgModel (metaEnv : String → String → Option MetaPackage)
    (main : Package) (mainPath : String) (deps : SMap) : Option (List Import) :=
  match ResolveMetaPackages metaEnv deps none with
  | none => none
  | some (deps2, _) =>
      match linkDepsLoop deps2 main.Deps [] with
      | none => none
      | some imports =>
          some (sortImportsL (imports ++ [⟨mainPath, "command-line-arguments"⟩]))

/-- One serialized line of the link importcfg:
`packagefile <importPath>=<storePath>/<basename(importPath)>.a`. -/
def linkCfgLine (i : Import) : String :=
  "packagefile " ++ i.ImportPath ++ "=" ++ i.StorePath ++ "/"
    ++ baseOf i.ImportPath ++ ".a"

/-- `Linkage.LinkPackage`: looks the main package up in the `deps` table
(`l.Deps[l.Main.ImportPath]`), writes the importcfg, and passes
`<storePath>/<basename(main.ImportPath)>.a` to the linker.  Returns the
archive argument and the importcfg entries. -/
def LinkPackage (metaEnv : String → String → Option MetaPackage)
    (main : Package) (deps : SMap) : Option (String × List Import) :=
  if smapGet deps main.ImportPath = "" then none
  else
    match linkImportCfgModel metaEnv main (smapGet deps main.ImportPath) deps with
    | none => none
    | some cfg =>
        some (smapGet deps main.ImportPath ++ "/" ++ baseOf main.ImportPath ++ ".a", cfg)

/-- The `link` sub-command: load the main `Package` sidecar from the
`main` attribute's store path (`LoadMetadata[Package](attrs.Main,
attrs.PackagePath)`, which stamps `ImportPath := attrs.PackagePath`), then
run `LinkPackage`. -/
def linkDriver (pkgEnv : String → String → Option Package)
    (metaEnv : String → String → Option MetaPackage)
    (mainAttr packagePath : String) (deps : SMap) : Option (String × List Import) :=
  match pkgEnv mainAttr packagePath with
  | none => none
  | some main => LinkPackage metaEnv ⟨packagePath, main.Imports, main.Deps⟩ deps

/-- Sidecar oracle for the C4 refutation: the `main` attribute points at
store path `M`, which holds a `foo` sidecar with no dependencies. -/
def pkgEnvC4 : String → String → Option Package :=
  fun sp ip => if sp = "M" ∧ ip = "foo" then some ⟨"foo", [], []⟩ else none

instance : IsTotal Import (fun a b => strLe a.ImportPath b.ImportPath) :=
  ⟨fun a b => le_total a.ImportPath.data b.ImportPath.data⟩

instance : IsTrans Import (fun a b => strLe a.ImportPath b.ImportPath) :=
  ⟨fun _ _ _ hab hbc => le_trans hab hbc⟩

instance : IsTrans String strLe := ⟨fun _ _ _ hab hbc => le_trans hab hbc⟩

instance : IsTotal String strLe := ⟨fun a b => le_total a.data b.data⟩

instance : IsAntisymm String strLe :=
  ⟨fun _ _ hab hba => String.ext (le_antisymm hab hba)⟩

/-! ## Lemmas -/

theorem findPair_filter_self (m : SMap) (k : String) :
    (m.filter (fun kv => kv.1 ≠ k)).find? (fun kv => kv.1 == k) = none := by
  induction m with
  | nil => rfl
  | cons kv rest ih =>
    by_cases hk : kv.1 = k
    · simp [List.filter_cons, hk, ih]
    · rw [List.filter_cons, if_pos (by simpa using hk),
        List.find?_cons_of_neg _ (by simpa using hk)]
      exact ih

theorem findPair_filter_other (m : SMap) (k k' : String) (h : k' ≠ k) :
    (m.filter (fun kv => kv.1 ≠ k)).find? (fun kv => kv.1 == k') =
      m.find? (fun kv => kv.1 == k') := by
  induction m with
  | nil => rfl
  | cons kv rest ih =>
    by_cases hk : kv.1 = k
    · rw [List.filter_cons, if_neg (by simpa using hk),
        List.find?_cons_of_neg _ (by simp [beq_iff_eq, hk]; exact fun hh => h hh.symm)]
      exact ih
    · rw [List.filter_cons, if_pos (by simpa using hk)]
      by_cases h' : kv.1 = k'
      · rw [List.find?_cons_of_pos _ (by simpa using h'),
          List.find?_cons_of_pos _ (by simpa using h')]
      · rw [List.find?_cons_of_neg _ (by simpa using h'),
          List.find?_cons_of_neg _ (by simpa using h')]
        exact ih

theorem smapFind_insert (m : SMap) (k v k' : String) :
    smapFind (smapInsert m k v) k' = if k' = k then some v else smapFind m k' := by
  unfold smapFind smapInsert
  rw [List.find?_append]
  by_cases h : k' = k
  · subst h
    rw [findPair_filter_self]
    simp [List.find?_cons_of_pos]
  · rw [findPair_filter_other m k k' h]
    rw [if_neg h]
    cases hfind : m.find? (fun kv => kv.1 == k') with
    | some p => simp
    | none =>
      have : ([(k, v)].find? (fun kv => kv.1 == k')) = none := by
        rw [List.find?_cons_of_neg _ (by simp [beq_iff_eq]; exact fun hh => h hh.symm)]
        rfl
      simp [this]

theorem smapFind_erase (m : SMap) (k k' : String) :
    smapFind (smapErase m k) k' = if k' = k then none else smapFind m k' := by
  unfold smapFind smapErase
  by_cases h : k' = k
  · subst h
    rw [findPair_filter_self, if_pos rfl]
    rfl
  · rw [findPair_filter_other m k k' h, if_neg h]

theorem smapFind_cons_ne (kv : String × String) (rest : SMap) (k : String)
    (h : kv.1 ≠ k) : smapFind (kv :: rest) k = smapFind rest k := by
  unfold smapFind
  rw [List.find?_cons_of_neg _ (by simpa using h)]

theorem smapFind_notMem (m : SMap) (k : String)
    (h : k ∉ m.map Prod.fst) : smapFind m k = none := by
  induction m with
  | nil => rfl
  | cons kv rest ih =>
    simp only [List.map_cons, List.mem_cons, not_or] at h
    rw [smapFind_cons_ne kv rest k (fun hh => h.1 hh.symm)]
    exact ih h.2

theorem smapFind_mapsCopy (dst src : SMap) (hnd : (src.map Prod.fst).Nodup)
    (k : String) :
    smapFind (mapsCopy dst src) k = (smapFind src k).or (smapFind dst k) := by
  induction src generalizing dst with
  | nil => simp [mapsCopy, smapFind]
  | cons kv rest ih =>
    simp only [List.map_cons, List.nodup_cons] at hnd
    have step : mapsCopy dst (kv :: rest) = mapsCopy (smapInsert dst kv.1 kv.2) rest := rfl
    rw [step, ih (smapInsert dst kv.1 kv.2) hnd.2]
    by_cases hk : k = kv.1
    · subst hk
      rw [smapFind_notMem rest kv.1 hnd.1, smapFind_insert]
      simp only [if_pos rfl, Option.none_or]
      unfold smapFind
      rw [List.find?_cons_of_pos _ (by simp)]
      rfl
    · rw [smapFind_insert]
      rw [if_neg hk, smapFind_cons_ne kv rest k (fun hh => hk hh.symm)]

theorem smapFind_subFold (subs : List Import) (m : SMap) (k : String) :
    smapFind (subFold subs m) k
      = (smapFind m k).or ((subs.find? (fun s => s.ImportPath == k)).map (·.StorePath)) := by
  induction subs generalizing m with
  | nil => simp [subFold]
  | cons s rest ih =>
    cases hs : smapHas m s.ImportPath with
    | true =>
      have step : subFold (s :: rest) m = subFold rest m := by
        rw [subFold, if_pos hs]
      rw [step, ih m]
      by_cases hhit : s.ImportPath = k
      · subst hhit
        cases hfind : smapFind m s.ImportPath with
        | none => simp [smapHas, hfind] at hs
        | some v =>
          rw [List.find?_cons_of_pos _ (by simp)]
          simp
      · rw [List.find?_cons_of_neg _ (by simpa using hhit)]
    | false =>
      have step : subFold (s :: rest) m
          = subFold rest (smapInsert m s.ImportPath s.StorePath) := by
        rw [subFold, if_neg (by simp [hs])]
      have hnone : smapFind m s.ImportPath = none := by
        cases hfind : smapFind m s.ImportPath with
        | none => rfl
        | some v => simp [smapHas, hfind] at hs
      rw [step, ih, smapFind_insert]
      by_cases hhit : s.ImportPath = k
      · subst hhit
        rw [if_pos rfl, hnone, List.find?_cons_of_pos _ (by simp)]
        simp
      · rw [if_neg (fun hh => hhit hh.symm),
          List.find?_cons_of_neg _ (by simpa using hhit)]

/-- Reduction of `ResolveMetaPackages` when a `std` entry is present and its
sidecar decodes to `meta`. -/
theorem resolveMetaPackages_std (metaEnv : String → String → Option MetaPackage)
    (pkgs : SMap) (im : Option SMap) (meta : MetaPackage)
    (hsp : smapGet pkgs "std" ≠ "")
    (hm : metaEnv (smapGet pkgs "std") "std" = some meta) :
    ResolveMetaPackages metaEnv pkgs im
      = some (subFold meta.SubPackages (smapErase pkgs "std"),
          im.map (fun m => mapsCopy m meta.ImportMap)) := by
  have h1 : resolveMeta1 metaEnv (pkgs, im) "std"
      = some (subFold meta.SubPackages (smapErase pkgs "std"),
          im.map (fun m => mapsCopy m meta.ImportMap)) := by
    unfold resolveMeta1
    rw [if_neg hsp, hm]
  show (resolveMeta1 metaEnv (pkgs, im) "std").bind _ = _
  rw [h1]
  rfl

/-- C2 counterexample: with caller import map `{a ↦ x}` and
meta-package import map `{a ↦ y}`, the merged map binds `a ↦ y` — the meta-package's
entry, not the caller's, survives the collision, refuting the claim that
the caller's map wins. -/
theorem resolveMeta_importMap_counterexample :
    ResolveMetaPackages metaEnvC2 [("std", "S")] (some [("a", "x")])
        = some ([], some [("a", "y")])
      ∧ smapFind [("a", "y")] "a" ≠ some "x" := by
  constructor
  · rfl
  · decide

/-- C2 (amended): when meta-package resolution expands a `std` entry, the
meta-package's `importMap` is merged into the caller's map by
`maps.Copy(importMap, pkg.ImportMap)`, so for every key present in both
maps the META-PACKAGE's entry wins; keys only in the caller's map are
preserved. -/
theorem resolveMeta_importMap_meta_wins (metaEnv : String → String → Option MetaPackage)
    (pkgs : SMap) (im : SMap) (meta : MetaPackage)
    (hsp : smapGet pkgs "std" ≠ "")
    (hm : metaEnv (smapGet pkgs "std") "std" = some meta)
    (hnd : (meta.ImportMap.map Prod.fst).Nodup) :
    ResolveMetaPackages metaEnv pkgs (some im)
        = some (subFold meta.SubPackages (smapErase pkgs "std"),
            some (mapsCopy im meta.ImportMap))
      ∧ ∀ k, smapFind (mapsCopy im meta.ImportMap) k
          = (smapFind meta.ImportMap k).or (smapFind im k) := by
  refine ⟨?_, fun k => smapFind_mapsCopy im meta.ImportMap hnd k⟩
  exact resolveMetaPackages_std metaEnv pkgs (some im) meta hsp hm

/-- Witness for the amended C2 theorem at a concrete input: the caller's
binding `a ↦ x` is overwritten by the meta-package's `a ↦ y`. -/
theorem resolveMeta_importMap_meta_wins_witness :
    smapFind (mapsCopy [("a", "x")] [("a", "y")]) "a" = some "y" := by
  have h := resolveMeta_importMap_meta_wins metaEnvC2 [("std", "S")] [("a", "x")]
    ⟨"std", [], [("a", "y")]⟩ (by decide) rfl (by decide)
  rw [h.2 "a"]
  rfl

/-- C8 (confirmed): expanding a meta-package keeps the caller's explicit
binding for any import path the caller's table already binds (other than
the expanded meta-package name itself), and adds the meta-package's binding
for any sub-package path not already bound. -/
theorem resolveMeta_subpackages_additive (metaEnv : String → String → Option MetaPackage)
    (pkgs : SMap) (im : Option SMap) (meta : MetaPackage)
    (hsp : smapGet pkgs "std" ≠ "")
    (hm : metaEnv (smapGet pkgs "std") "std" = some meta) :
    ResolveMetaPackages metaEnv pkgs im
        = some (subFold meta.SubPackages (smapErase pkgs "std"),
            im.map (fun m => mapsCopy m meta.ImportMap))
      ∧ (∀ k, smapFind (subFold meta.SubPackages (smapErase pkgs "std")) k
          = (smapFind (smapErase pkgs "std") k).or
              ((meta.SubPackages.find? (fun s => s.ImportPath == k)).map (·.StorePath)))
      ∧ (∀ k, k ≠ "std" → (smapFind pkgs k).isSome →
          smapFind (subFold meta.SubPackages (smapErase pkgs "std")) k = smapFind pkgs k) := by
  refine ⟨resolveMetaPackages_std metaEnv pkgs im meta hsp hm,
    fun k => smapFind_subFold meta.SubPackages (smapErase pkgs "std") k, fun k hk hs => ?_⟩
  rw [smapFind_subFold, smapFind_erase, if_neg hk]
  cases hfind : smapFind pkgs k with
  | none => rw [hfind] at hs; simp at hs
  | some v => simp

/-- Witness for C8: the spec's P5 example.  `imports = {std ↦ S, fmt ↦ F}`
with `std` declaring sub-packages `{fmt ↦ F2, io ↦ I}` resolves to
`{fmt ↦ F, io ↦ I}` — the explicit `fmt` binding wins and `io` is added. -/
theorem resolveMeta_subpackages_additive_witness :
    ResolveMetaPackages metaEnvC8 [("std", "S"), ("fmt", "F")] none
      = some ([("fmt", "F"), ("io", "I")], none) := by
  have h := (resolveMeta_subpackages_additive metaEnvC8 [("std", "S"), ("fmt", "F")] none
    ⟨"std", [⟨"F2", "fmt"⟩, ⟨"I", "io"⟩], []⟩ (by decide) rfl).1
  exact h

theorem scanOne_inv (pkgs im : SMap) (P : String → Prop) (st st' : ScanSt) (p : String)
    (hP : P p) (hinv : ScanInv im P st) (h : scanOne pkgs im st p = some st') :
    ScanInv im P st' ∧ ∀ q ∈ st.found, q ∈ st'.found := by
  obtain ⟨hPf, hi, hr, hrnd, hind⟩ := hinv
  have hPf' : ∀ x ∈ p :: st.found, P x := by
    intro x hx
    rcases List.mem_cons.1 hx with rfl | hx
    · exact hP
    · exact hPf x hx
  unfold scanOne at h
  split at h
  next h1 =>
    obtain rfl := Option.some.inj h
    exact ⟨⟨hPf, hi, hr, hrnd, hind⟩, fun q hq => hq⟩
  next h1 =>
    split at h
    next h2 =>
      obtain rfl := Option.some.inj h
      refine ⟨⟨hPf', ?_, ?_, hrnd, hind⟩, fun q hq => List.mem_cons_of_mem _ hq⟩
      · exact fun i hmem => (hi i hmem).imp fun q hq => ⟨List.mem_cons_of_mem _ hq.1, hq.2⟩
      · exact fun r hmem => List.mem_cons_of_mem _ (hr r hmem)
    next h2 =>
      split at h
      next sp hfind =>
        obtain rfl := Option.some.inj h
        refine ⟨⟨hPf', ?_, ?_, ?_, ?_⟩, fun q hq => List.mem_cons_of_mem _ hq⟩
        · intro i hmem
          rcases List.mem_append.1 hmem with hmem | hmem
          · exact (hi i hmem).imp fun q hq => ⟨List.mem_cons_of_mem _ hq.1, hq.2⟩
          · rw [List.mem_singleton] at hmem
            subst hmem
            exact ⟨p, List.mem_cons_self _ _, rfl⟩
        · intro r hmem
          by_cases htp : smapGet im p ≠ ""
          · rw [if_pos htp] at hmem
            rcases List.mem_append.1 hmem with hmem | hmem
            · exact List.mem_cons_of_mem _ (hr r hmem)
            · rw [List.mem_singleton] at hmem
              subst hmem
              exact List.mem_cons_self _ _
          · rw [if_neg htp] at hmem
            exact List.mem_cons_of_mem _ (hr r hmem)
        · by_cases htp : smapGet im p ≠ ""
          · rw [if_pos htp, List.map_append, List.nodup_append]
            refine ⟨hrnd, List.nodup_singleton _, fun a ha hb => ?_⟩
            simp only [List.map_cons, List.map_nil, List.mem_singleton] at hb
            subst hb
            obtain ⟨r, hrm, hkey⟩ := List.mem_map.1 ha
            exact h1 (hkey ▸ hr r hrm)
          · rw [if_neg htp]
            exact hrnd
        · intro hinj
          rw [List.map_append, List.nodup_append]
          refine ⟨hind hinj, List.nodup_singleton _, fun a ha hb => ?_⟩
          simp only [List.map_cons, List.map_nil, List.mem_singleton] at hb
          subst hb
          obtain ⟨i, hmem, hkey⟩ := List.mem_map.1 ha
          obtain ⟨q, hq, he⟩ := hi i hmem
          have hqp : q = p := hinj q p (hPf q hq) hP (by rw [← he, hkey])
          exact h1 (hqp ▸ hq)
      next hfind =>
        exact absurd h (by simp)

theorem scanFile_inv (pkgs im : SMap) (P : String → Prop) (l : List String)
    (st st' : ScanSt) (hP : ∀ p ∈ l, P p)
    (hinv : ScanInv im P st) (h : scanFile pkgs im st l = some st') :
    ScanInv im P st' := by
  induction l generalizing st with
  | nil =>
    obtain rfl := Option.some.inj h
    exact hinv
  | cons a l ih =>
    unfold scanFile at h
    cases hone : scanOne pkgs im st a with
    | none => rw [hone] at h; exact absurd h (by simp)
    | some st1 =>
      rw [hone] at h
      exact ih st1 (fun p hp => hP p (List.mem_cons_of_mem _ hp))
        (scanOne_inv pkgs im P st st1 a (hP a (List.mem_cons_self _ _)) hinv hone).1 h

theorem scanSrcs_inv (fileEnv : String → Option (List String)) (pkgs im : SMap)
    (P : String → Prop) (srcs : List String) (st st' : ScanSt)
    (hP : ∀ src ∈ srcs, ∀ fis, fileEnv src = some fis → ∀ p ∈ fis, P p)
    (hinv : ScanInv im P st) (h : scanSrcs fileEnv pkgs im st srcs = some st') :
    ScanInv im P st' := by
  induction srcs generalizing st with
  | nil =>
    obtain rfl := Option.some.inj h
    exact hinv
  | cons a l ih =>
    unfold scanSrcs at h
    cases henv : fileEnv a with
    | none => rw [henv] at h; exact absurd h (by simp)
    | some fis =>
      rw [henv] at h
      replace h : (match scanFile pkgs im st fis with
          | none => none
          | some st1 => scanSrcs fileEnv pkgs im st1 l) = some st' := h
      cases hfile : scanFile pkgs im st fis with
      | none => rw [hfile] at h; exact absurd h (by simp)
      | some st1 =>
        rw [hfile] at h
        exact ih st1
          (fun src hs fis2 henv2 p hp => hP src (List.mem_cons_of_mem _ hs) fis2 henv2 p hp)
          (scanFile_inv pkgs im P fis st st1
            (fun p hp => hP a (List.mem_cons_self _ _) fis henv p hp) hinv hfile)
          h

theorem sortImportsL_sorted_le (l : List Import) :
    ((sortImportsL l).map (·.ImportPath)).Sorted strLe :=
  List.pairwise_map.2 (List.sorted_insertionSort _ l)

theorem sortImportsL_strict (l : List Import)
    (hnd : (l.map (·.ImportPath)).Nodup) :
    ((sortImportsL l).map (·.ImportPath)).Sorted strLt := by
  have hperm : List.Perm ((sortImportsL l).map (·.ImportPath)) (l.map (·.ImportPath)) :=
    (List.perm_insertionSort _ l).map _
  have hnd' : ((sortImportsL l).map (·.ImportPath)).Nodup := hperm.nodup_iff.2 hnd
  have hle := sortImportsL_sorted_le l
  exact (hle.and hnd').imp fun hab =>
    lt_of_le_of_ne hab.1 (fun hd => hab.2 (String.ext hd))

/-- C3 counterexample: with one source file importing `p1` and `p2` and
an import map sending both to the canonical path `q`, `ScanImports` succeeds
but the resolved import list contains `q` twice, so it is NOT strictly
ascending (and neither is the sidecar `Imports` list or the importcfg
`packagefile` sequence derived from it). -/
theorem scanImports_strict_counterexample :
    ScanImports fileEnvC3 ["a.go"] [("q", "S")] [("p1", "q"), ("p2", "q")]
        = some ([⟨"S", "q"⟩, ⟨"S", "q"⟩], [⟨"q", "p1"⟩, ⟨"q", "p2"⟩])
      ∧ ¬ (([⟨"S", "q"⟩, ⟨"S", "q"⟩] : List Import).map (·.ImportPath)).Sorted strLt := by
  constructor
  · rfl
  · decide

/-- C3 (amended): on every input on which `ScanImports` succeeds, both
output sequences are sorted (non-decreasing) by import path; the rewrites
sequence is always strictly ascending; and the resolved-imports sequence
(hence the serialized importcfg `packagefile` list and the sidecar
`Imports` list) is strictly ascending provided the import-map rewrite step
sends distinct SCANNED source-level import paths (paths occurring in some
scanned file's import list, `ScannedPath`) to distinct canonical paths.
With a rewrite collision between two scanned paths the resolved sequence
contains adjacent duplicate entries. -/
theorem scanImports_sorted (fileEnv : String → Option (List String))
    (srcs : List String) (pkgs im : SMap) (imps rws : List Import)
    (h : ScanImports fileEnv srcs pkgs im = some (imps, rws)) :
    (imps.map (·.ImportPath)).Sorted strLe
      ∧ (rws.map (·.ImportPath)).Sorted strLt
      ∧ ((∀ p q, ScannedPath fileEnv srcs p → ScannedPath fileEnv srcs q →
            canonOf im p = canonOf im q → p = q) →
          (imps.map (·.ImportPath)).Sorted strLt) := by
  unfold ScanImports at h
  cases hsrc : scanSrcs fileEnv pkgs im ⟨[], [], []⟩ srcs with
  | none => rw [hsrc] at h; exact absurd h (by simp)
  | some st =>
    rw [hsrc] at h
    obtain ⟨rfl, rfl⟩ := Prod.mk.injEq .. ▸ Option.some.inj h
    have hinv0 : ScanInv im (ScannedPath fileEnv srcs) ⟨[], [], []⟩ :=
      ⟨fun x hx => absurd hx (List.not_mem_nil x),
        fun i hi => absurd hi (List.not_mem_nil i),
        fun r hr => absurd hr (List.not_mem_nil r),
        List.nodup_nil, fun _ => List.nodup_nil⟩
    have hinv := scanSrcs_inv fileEnv pkgs im (ScannedPath fileEnv srcs) srcs _ st
      (fun src hs fis henv p hp => ⟨src, hs, fis, henv, hp⟩) hinv0 hsrc
    exact ⟨sortImportsL_sorted_le st.imports,
      sortImportsL_strict st.rewrites hinv.2.2.2.1,
      fun hinj => sortImportsL_strict st.imports (hinv.2.2.2.2 hinj)⟩

/-- Witness for the amended C3 theorem, with the ordinary rewrite map
`{fmt ↦ zfmt}`: it is NOT injective on all strings (`fmt` and `zfmt`
share the canonical path `zfmt`), but it is injective on the two scanned
paths `fmt` and `abc`, so the resolved list comes out strictly
ascending. -/
theorem scanImports_sorted_witness :
    ((([⟨"A", "abc"⟩, ⟨"F", "zfmt"⟩] : List Import).map (·.ImportPath)).Sorted strLt) := by
  have h := scanImports_sorted fileEnvSortedW ["w.go"] [("zfmt", "F"), ("abc", "A")]
    [("fmt", "zfmt")] [⟨"A", "abc"⟩, ⟨"F", "zfmt"⟩] [⟨"zfmt", "fmt"⟩] rfl
  refine h.2.2 ?_
  have hmem : ∀ r, ScannedPath fileEnvSortedW ["w.go"] r → r = "fmt" ∨ r = "abc" := by
    rintro r ⟨src, hsrc, fis, henv, hrm⟩
    obtain rfl := List.mem_singleton.1 hsrc
    obtain rfl : ["fmt", "abc"] = fis := Option.some.inj henv
    exact List.mem_pair.1 hrm
  intro p q hp hq hc
  rcases hmem p hp with rfl | rfl <;> rcases hmem q hq with rfl | rfl
  · rfl
  · exact absurd hc (by decide)
  · exact absurd hc (by decide)
  · rfl

theorem mem_setInsert (s : List String) (k x : String) :
    x ∈ setInsert s k ↔ x ∈ s ∨ x = k := by
  unfold setInsert
  by_cases h : k ∈ s
  · rw [if_pos h]
    constructor
    · exact Or.inl
    · rintro (hx | rfl)
      · exact hx
      · exact h
  · rw [if_neg h]
    simp

theorem nodup_setInsert (s : List String) (k : String) (hnd : s.Nodup) :
    (setInsert s k).Nodup := by
  unfold setInsert
  by_cases h : k ∈ s
  · rwa [if_pos h]
  · rw [if_neg h, List.nodup_append]
    exact ⟨hnd, List.nodup_singleton _, fun a ha hb => h ((List.mem_singleton.1 hb) ▸ ha)⟩

theorem mem_foldl_setInsert (l : List String) (s : List String) (x : String) :
    x ∈ l.foldl setInsert s ↔ x ∈ s ∨ x ∈ l := by
  induction l generalizing s with
  | nil => simp
  | cons a l ih =>
    rw [List.foldl_cons, ih, mem_setInsert]
    simp only [List.mem_cons]
    tauto

theorem nodup_foldl_setInsert (l : List String) (s : List String) (hnd : s.Nodup) :
    (l.foldl setInsert s).Nodup := by
  induction l generalizing s with
  | nil => exact hnd
  | cons a l ih => exact ih _ (nodup_setInsert s a hnd)

theorem depsLoop_char (pkgEnv : String → String → Option Package)
    (l : List Import) (imports deps : List String) (il ds : List String)
    (h : depsLoop pkgEnv l imports deps = some (il, ds)) :
    il = imports ++ l.map (·.ImportPath)
      ∧ (∀ x, x ∈ ds ↔ x ∈ deps ∨ ∃ d ∈ l, x = d.ImportPath
          ∨ ∃ p, pkgEnv d.StorePath d.ImportPath = some p ∧ x ∈ p.Deps)
      ∧ (deps.Nodup → ds.Nodup) := by
  induction l generalizing imports deps with
  | nil =>
    obtain ⟨rfl, rfl⟩ := Prod.mk.injEq .. ▸ Option.some.inj h
    refine ⟨by simp, fun x => ?_, fun hnd => hnd⟩
    simp
  | cons d rest ih =>
    unfold depsLoop at h
    cases henv : pkgEnv d.StorePath d.ImportPath with
    | none => rw [henv] at h; exact absurd h (by simp)
    | some pkg =>
      rw [henv] at h
      obtain ⟨h1, h2, h3⟩ := ih _ _ h
      refine ⟨by rw [h1]; simp, fun x => ?_, fun hnd => h3 (nodup_foldl_setInsert _ _ (nodup_setInsert _ _ hnd))⟩
      rw [h2 x, mem_foldl_setInsert, mem_setInsert]
      constructor
      · rintro (((hx | rfl) | hx) | ⟨e, he, hcase⟩)
        · exact Or.inl hx
        · exact Or.inr ⟨d, List.mem_cons_self _ _, Or.inl rfl⟩
        · exact Or.inr ⟨d, List.mem_cons_self _ _, Or.inr ⟨pkg, henv, hx⟩⟩
        · exact Or.inr ⟨e, List.mem_cons_of_mem _ he, hcase⟩
      · rintro (hx | ⟨e, he, hcase⟩)
        · exact Or.inl (Or.inl (Or.inl hx))
        · rcases List.mem_cons.1 he with rfl | he
          · rcases hcase with rfl | ⟨p, hp, hx⟩
            · exact Or.inl (Or.inl (Or.inr rfl))
            · rw [henv] at hp
              obtain rfl := Option.some.inj hp
              exact Or.inl (Or.inr hx)
          · exact Or.inr ⟨e, he, hcase⟩

theorem sortStrings_sorted_le (l : List String) : (sortStrings l).Sorted strLe :=
  List.sorted_insertionSort _ l

theorem sortStrings_strict (l : List String) (hnd : l.Nodup) :
    (sortStrings l).Sorted strLt := by
  have hperm : List.Perm (sortStrings l) l := List.perm_insertionSort _ l
  have hnd' : (sortStrings l).Nodup := hperm.nodup_iff.2 hnd
  exact ((sortStrings_sorted_le l).and hnd').imp fun hab =>
    lt_of_le_of_ne hab.1 (fun hd => hab.2 (String.ext hd))

theorem mem_sortStrings (l : List String) (x : String) :
    x ∈ sortStrings l ↔ x ∈ l :=
  (List.perm_insertionSort _ l).mem_iff

/-- C1 (confirmed): on success, `Compilation.Deps` returns the scanned
direct-import paths verbatim as `Imports`, and as `Deps` the strictly
ascending (sorted, duplicate-free) union of the direct-import paths and
the `Deps` lists loaded from each direct import's metadata sidecar; in
particular every direct import appears in `Deps`. -/
theorem compilationDeps_closure (pkgEnv : String → String → Option Package)
    (imps : List Import) (il dl : List String)
    (h : compilationDeps pkgEnv (some imps) = DepsOut.ok il dl) :
    il = imps.map (·.ImportPath)
      ∧ dl.Sorted strLt
      ∧ (∀ s, s ∈ dl ↔ ∃ d ∈ imps, s = d.ImportPath
          ∨ ∃ p, pkgEnv d.StorePath d.ImportPath = some p ∧ s ∈ p.Deps)
      ∧ (∀ d ∈ imps, d.ImportPath ∈ dl) := by
  replace h : (match depsLoop pkgEnv imps [] [] with
      | none => DepsOut.fail
      | some (il, ds) => DepsOut.ok il (sortStrings ds)) = DepsOut.ok il dl := h
  cases hloop : depsLoop pkgEnv imps [] [] with
  | none => rw [hloop] at h; exact absurd h (by simp)
  | some pr =>
    obtain ⟨il0, ds⟩ := pr
    rw [hloop] at h
    obtain ⟨rfl, rfl⟩ := DepsOut.ok.injEq .. ▸ h
    obtain ⟨h1, h2, h3⟩ := depsLoop_char pkgEnv imps [] [] il0 ds hloop
    have hmem : ∀ s, s ∈ sortStrings ds ↔ ∃ d ∈ imps, s = d.ImportPath
        ∨ ∃ p, pkgEnv d.StorePath d.ImportPath = some p ∧ s ∈ p.Deps := by
      intro s
      rw [mem_sortStrings, h2 s]
      simp
    refine ⟨by simpa using h1, sortStrings_strict ds (h3 List.nodup_nil), hmem, ?_⟩
    intro d hd
    exact (hmem d.ImportPath).2 ⟨d, hd, Or.inl rfl⟩

/-- Witness for C1 at a concrete two-import graph: direct imports `a`, `b`
with `a`'s sidecar recording dep `z` give `Deps = ["a", "b", "z"]`. -/
theorem compilationDeps_closure_witness :
    compilationDeps pkgEnvC1 (some [⟨"SA", "a"⟩, ⟨"SB", "b"⟩])
        = DepsOut.ok ["a", "b"] ["a", "b", "z"]
      ∧ (["a", "b", "z"] : List String).Sorted strLt
      ∧ "a" ∈ (["a", "b", "z"] : List String) := by
  have heq : compilationDeps pkgEnvC1 (some [⟨"SA", "a"⟩, ⟨"SB", "b"⟩])
      = DepsOut.ok ["a", "b"] ["a", "b", "z"] := rfl
  have h := compilationDeps_closure pkgEnvC1 _ _ _ heq
  exact ⟨heq, h.2.1, h.2.2.2 ⟨"SA", "a"⟩ (List.mem_cons_self _ _)⟩

/-- C10 (confirmed): `Compilation.Deps` hits its `panic` exactly on the
`nil` imports field, i.e. when `CompilePackage` has not run; whenever
`CompilePackage` returns successfully the field is non-`nil` and the panic
branch is unreachable for every sidecar environment. -/
theorem deps_panic_guard (pkgEnv : String → String → Option Package) :
    compilationDeps pkgEnv none = DepsOut.panics
      ∧ ∀ metaEnv fileEnv goSrcs deps importMap toolOk st,
          compilePackageModel metaEnv fileEnv goSrcs deps importMap toolOk = (st, true) →
          st ≠ none ∧ ∀ env, compilationDeps env st ≠ DepsOut.panics := by
  refine ⟨rfl, ?_⟩
  intro metaEnv fileEnv goSrcs deps importMap toolOk st h
  unfold compilePackageModel at h
  cases hcfg : compileImportCfgM metaEnv fileEnv goSrcs deps importMap with
  | none =>
    rw [hcfg] at h
    exact absurd (congrArg Prod.snd h) (by simp)
  | some pr =>
    obtain ⟨imps, rws⟩ := pr
    rw [hcfg] at h
    have hst : st = some imps := (Prod.mk.injEq .. ▸ h).1.symm
    subst hst
    refine ⟨by simp, fun env => ?_⟩
    show (match depsLoop env imps [] [] with
        | none => DepsOut.fail
        | some (il, ds) => DepsOut.ok il (sortStrings ds)) ≠ DepsOut.panics
    cases depsLoop env imps [] [] with
    | none => simp
    | some pr2 => obtain ⟨a, b⟩ := pr2; simp

/-- Witness for C10: a trivially succeeding compilation leaves a
non-`nil` (empty) imports field, on which `Deps` does not panic. -/
theorem deps_panic_guard_witness :
    compilationDeps (fun _ _ => none) (some ([] : List Import)) ≠ DepsOut.panics := by
  have h := (deps_panic_guard (fun _ _ => none)).2
    (fun _ _ => none) (fun _ => none) [] [] none true (some []) rfl
  exact h.2 (fun _ _ => none)

theorem trimPathLoop_acc (ip : String) (srcs : List String) (seen : List String)
    (acc : String) :
    (trimPathLoop ip srcs seen acc).2 = acc ++ trimEntries ip (newDirs srcs seen) := by
  induction srcs generalizing seen acc with
  | nil =>
    show acc = acc ++ trimEntries ip []
    rw [trimEntries, String.append_empty]
  | cons src rest ih =>
    simp only [trimPathLoop, newDirs]
    by_cases h : dirOf src ∈ seen
    · rw [if_pos h, if_pos h]
      exact ih seen acc
    · rw [if_neg h, if_neg h, ih, trimEntries]
      simp [String.append_assoc]

/-- C5 counterexample: with one assembly-bearing source set, the computed
`-trimpath` value places the `<outDir>=>` entry BEFORE the `<buildDir>=>`
entry, not after it as claimed. -/
theorem trimPath_order_counterexample :
    trimPathArg ["/s/a.go"] "p" "/o" "/b" true = "/s=>p;/o=>;/b=>"
      ∧ trimPathArg ["/s/a.go"] "p" "/o" "/b" true ≠ "/s=>p;/b=>;/o=>" := by
  constructor
  · rfl
  · decide

/-- C5 (amended): the `-trimpath` argument is the `<srcDir>=><importPath>`
entries for the distinct source directories in first-occurrence order,
then the `<outDir>=>` entry, and LAST — only when assembly sources are
present — the `<buildDir>=>` entry (the buildDir entry follows the outDir
entry rather than preceding it). -/
theorem trimPathArg_shape (srcs : List String) (ip out bdir : String) (hasAsm : Bool) :
    trimPathArg srcs ip out bdir hasAsm
      = trimEntries ip (newDirs srcs []) ++ out ++ "=>"
          ++ (if hasAsm then ";" ++ bdir ++ "=>" else "") := by
  unfold trimPathArg packageTrimPath
  rw [trimPathLoop_acc, String.empty_append]
  cases hasAsm with
  | true =>
    rw [if_pos rfl, if_pos rfl, ← String.append_assoc, ← String.append_assoc]
  | false =>
    rw [if_neg (by simp), if_neg (by simp), String.append_empty]

/-- C7 (code bug): the malformed-output guard in `compilerVersion` is
`if len(fields) < 3 && fields[0] != "go" && fields[1] != "version"` —
`&&` where the guard's own error message and the spec require `||`.  On
outputs with fewer than three whitespace-delimited tokens the function
indexes `fields` out of range and PANICS instead of returning the
structured error (empty output panics at `fields[0]`, a lone non-"go"
token panics at `fields[1]`, and two tokens starting "go version" — the
realistic truncation — pass all the way to `fields[2]`); the error branch
is reachable only for exactly-two-token outputs not matching
`go version`.  On well-formed output the third token is returned with a
leading "go" stripped. -/
theorem compilerVersion_behavior :
    compilerVersion "go version\n" = CVOut.panics
      ∧ compilerVersion "" = CVOut.panics
      ∧ compilerVersion "go\n" = CVOut.panics
      ∧ compilerVersion "weird output\n" = CVOut.err
      ∧ compilerVersion "go version go1.23.5 linux/amd64\n" = CVOut.ok "1.23.5" := by
  refine ⟨rfl, rfl, rfl, rfl, ?_⟩
  decide

/-- C9 (confirmed): the `-complete` flag appears in the compiler argument
vector iff the package has no assembly sources and its import path is not
in the forward-declaration allowlist; and that allowlist is exactly the
ten-element set the spec enumerates.  The non-collision hypotheses pin
down that no caller-supplied string is itself the literal `"-complete"`. -/
theorem complete_flag_iff (extraArgs : List String)
    (exportData obj trimPath importPath compatVersion : String)
    (sSrcs : List String) (symabis asmHeader : String) (embedCfg : Option String)
    (parallelism importCfg : String) (goSrcs : List String)
    (h1 : "-complete" ∉ extraArgs) (h2 : "-complete" ∉ goSrcs)
    (h3 : ∀ path, embedCfg = some path → path ≠ "-complete")
    (h4 : exportData ≠ "-complete") (h5 : obj ≠ "-complete")
    (h6 : trimPath ≠ "-complete") (h7 : importPath ≠ "-complete")
    (h8 : compatVersion ≠ "-complete") (h9 : symabis ≠ "-complete")
    (h10 : asmHeader ≠ "-complete") (h11 : parallelism ≠ "-complete")
    (h12 : importCfg ≠ "-complete") :
    ("-complete" ∈ compileArgs extraArgs exportData obj trimPath importPath
        compatVersion sSrcs symabis asmHeader embedCfg parallelism importCfg goSrcs
      ↔ sSrcs = [] ∧ hasForwardDecl importPath = false)
    ∧ (∀ ip, hasForwardDecl ip = true ↔ ip ∈ specForwardDeclList) := by
  constructor
  · unfold compileArgs
    cases embedCfg with
    | none =>
      cases sSrcs with
      | nil =>
        by_cases hfd : hasForwardDecl importPath
        · simp [hfd, h1, h2, Ne.symm h4, Ne.symm h5, Ne.symm h6, Ne.symm h7,
            Ne.symm h8, Ne.symm h11, Ne.symm h12]
        · simp [hfd, h1, h2, Ne.symm h4, Ne.symm h5, Ne.symm h6, Ne.symm h7,
            Ne.symm h8, Ne.symm h11, Ne.symm h12]
      | cons s0 srest =>
        simp [h1, h2, Ne.symm h4, Ne.symm h5, Ne.symm h6, Ne.symm h7,
          Ne.symm h8, Ne.symm h9, Ne.symm h10, Ne.symm h11, Ne.symm h12]
    | some path =>
      have hp := h3 path rfl
      cases sSrcs with
      | nil =>
        by_cases hfd : hasForwardDecl importPath
        · simp [hfd, h1, h2, Ne.symm h4, Ne.symm h5, Ne.symm h6, Ne.symm h7,
            Ne.symm h8, Ne.symm h11, Ne.symm h12, Ne.symm hp]
        · simp [hfd, h1, h2, Ne.symm h4, Ne.symm h5, Ne.symm h6, Ne.symm h7,
            Ne.symm h8, Ne.symm h11, Ne.symm h12, Ne.symm hp]
      | cons s0 srest =>
        simp [h1, h2, Ne.symm h4, Ne.symm h5, Ne.symm h6, Ne.symm h7,
          Ne.symm h8, Ne.symm h9, Ne.symm h10, Ne.symm h11, Ne.symm h12, Ne.symm hp]
  · intro ip
    unfold hasForwardDecl specForwardDeclList
    simp only [Bool.or_eq_true, beq_iff_eq, List.mem_cons, List.not_mem_nil, or_false]
    tauto

/-- Witness for C9 at a concrete input: an assembly-free `fmt` compilation
receives `-complete`, and `fmt` is outside the allowlist while `sync` is
inside. -/
theorem complete_flag_iff_witness :
    ("-complete" ∈ compileArgs [] "e.x" "l.a" "tp" "fmt" "go1.23" [] "sy" "ah"
        none "4" "cfg" ["a.go"]
      ↔ ([] : List String) = [] ∧ hasForwardDecl "fmt" = false)
    ∧ hasForwardDecl "fmt" = false
    ∧ hasForwardDecl "sync" = true := by
  have h := complete_flag_iff [] "e.x" "l.a" "tp" "fmt" "go1.23" [] "sy" "ah"
    none "4" "cfg" ["a.go"]
    (by simp) (by simp) (fun path hp => by cases hp)
    (by decide) (by decide) (by decide) (by decide) (by decide) (by decide)
    (by decide) (by decide) (by decide)
  refine ⟨h.1, ?_, ?_⟩
  · decide
  · decide

theorem parseIntChars_some_iff (l : List Char) (v : Int) :
    parseIntChars l = some v ↔
      ((∃ ds, (l = ds ∨ l = '+' :: ds) ∧ ds ≠ []
          ∧ (∀ c ∈ ds, c.isDigit = true) ∧ v = (decValue ds : Int))
        ∨ (∃ ds, l = '-' :: ds ∧ ds ≠ []
          ∧ (∀ c ∈ ds, c.isDigit = true) ∧ v = -(decValue ds : Int)))
      ∧ -(2 ^ 31) ≤ v ∧ v ≤ 2 ^ 31 - 1 := by
  cases l with
  | nil =>
    constructor
    · intro h
      exact absurd h (by simp [parseIntChars])
    · rintro ⟨⟨ds, hds, hne, _⟩ | ⟨ds, hds, hne, _⟩, _⟩
      · rcases hds with rfl | hds
        · exact absurd rfl hne
        · exact absurd hds (by simp)
      · exact absurd hds (by simp)
  | cons c cs =>
    constructor
    · intro h
      simp only [parseIntChars] at h
      by_cases hsign : c = '-' ∨ c = '+'
      · rw [if_pos hsign] at h
        by_cases hnil : cs = []
        · rw [if_pos hnil] at h
          exact absurd h (by simp)
        · rw [if_neg hnil] at h
          by_cases hdig : cs.all (fun d => d.isDigit) = true
          · rw [if_pos hdig] at h
            by_cases hrange : -(2 ^ 31) ≤ signedVal c cs ∧ signedVal c cs ≤ 2 ^ 31 - 1
            · rw [if_pos hrange] at h
              obtain rfl := (Option.some.inj h).symm
              refine ⟨?_, hrange⟩
              rcases hsign with rfl | rfl
              · refine Or.inr ⟨cs, rfl, hnil, List.all_eq_true.1 hdig, ?_⟩
                unfold signedVal
                rw [if_pos rfl]
              · refine Or.inl ⟨cs, Or.inr rfl, hnil, List.all_eq_true.1 hdig, ?_⟩
                unfold signedVal
                rw [if_neg (by decide)]
            · rw [if_neg hrange] at h
              exact absurd h (by simp)
          · rw [if_neg hdig] at h
            exact absurd h (by simp)
      · rw [if_neg hsign] at h
        by_cases hdig : (c :: cs).all (fun d => d.isDigit) = true
        · rw [if_pos hdig] at h
          by_cases hrange : -(2 ^ 31) ≤ (decValue (c :: cs) : Int)
              ∧ (decValue (c :: cs) : Int) ≤ 2 ^ 31 - 1
          · rw [if_pos hrange] at h
            obtain rfl := (Option.some.inj h).symm
            exact ⟨Or.inl ⟨c :: cs, Or.inl rfl, by simp, List.all_eq_true.1 hdig, rfl⟩,
              hrange⟩
          · rw [if_neg hrange] at h
            exact absurd h (by simp)
        · rw [if_neg hdig] at h
          exact absurd h (by simp)
    · rintro ⟨⟨ds, hds, hne, hdig, rfl⟩ | ⟨ds, hds, hne, hdig, rfl⟩, hrange⟩
      · rcases hds with hds | hds
        · subst hds
          have hc : c.isDigit = true := hdig c (List.mem_cons_self _ _)
          have hsign : ¬(c = '-' ∨ c = '+') := by
            rintro (rfl | rfl) <;> exact absurd hc (by decide)
          simp only [parseIntChars]
          rw [if_neg hsign, if_pos (List.all_eq_true.2 hdig), if_pos hrange]
        · injection hds with hc hcs
          subst hc
          subst hcs
          simp only [parseIntChars]
          have hsv : signedVal '+' cs = (decValue cs : Int) := by
            unfold signedVal
            rw [if_neg (by decide)]
          rw [if_pos (by simp), if_neg hne, if_pos (List.all_eq_true.2 hdig),
            hsv, if_pos hrange]
      · injection hds with hc hcs
        subst hc
        subst hcs
        simp only [parseIntChars]
        have hsv : signedVal '-' cs = -(decValue cs : Int) := by
          unfold signedVal
          rw [if_pos rfl]
        rw [if_pos (by simp), if_neg hne, if_pos (List.all_eq_true.2 hdig),
          hsv, if_pos hrange]

/-- C6 counterexample: `NIX_BUILD_CORES="-3"` is NOT rejected — the
function accepts it and returns the negative value `-3`, refuting "fails
loudly on anything but a positive integer". -/
theorem buildParallelism_counterexample :
    BuildParallelism 8 "-3" = some (-3) ∧ ¬(0 < (-3 : Int)) := by
  constructor
  · rfl
  · decide

/-- C6 (amended): `""` yields 1 and `"0"` yields the detected CPU count;
any other string is accepted iff it is an optionally SIGNED decimal
numeral whose value fits in signed 32 bits, in which case that value —
including zero (e.g. `"00"`) and negative values — is returned; the
function fails only when `strconv.ParseInt(s, 10, 32)` errors
(non-numeric input or 32-bit overflow). -/
theorem buildParallelism_amended (numCPU : Int) (s : String) (v : Int) :
    BuildParallelism numCPU s = some v
      ↔ (s = "" ∧ v = 1) ∨ (s = "0" ∧ v = numCPU)
        ∨ (s ≠ "" ∧ s ≠ "0" ∧ IsInt32Numeral s v) := by
  unfold BuildParallelism
  by_cases h0 : s = ""
  · subst h0
    simp [eq_comm]
  · rw [if_neg h0]
    by_cases h1 : s = "0"
    · subst h1
      rw [if_pos rfl]
      simp [h0, eq_comm]
    · rw [if_neg h1]
      unfold goParseInt32 IsInt32Numeral
      rw [parseIntChars_some_iff]
      simp [h0, h1]

theorem linkImportCfgModel_sentinel (metaEnv : String → String → Option MetaPackage)
    (main : Package) (mainPath : String) (deps : SMap) (cfg : List Import)
    (h : linkImportCfgModel metaEnv main mainPath deps = some cfg) :
    (⟨mainPath, "command-line-arguments"⟩ : Import) ∈ cfg := by
  unfold linkImportCfgModel at h
  cases hr : ResolveMetaPackages metaEnv deps none with
  | none => rw [hr] at h; exact absurd h (by simp)
  | some pr =>
    obtain ⟨deps2, im2⟩ := pr
    rw [hr] at h
    replace h : (match linkDepsLoop deps2 main.Deps [] with
        | none => none
        | some imports =>
            some (sortImportsL (imports ++ [⟨mainPath, "command-line-arguments"⟩])))
          = some cfg := h
    cases hl : linkDepsLoop deps2 main.Deps [] with
    | none => rw [hl] at h; exact absurd h (by simp)
    | some imports =>
      rw [hl] at h
      obtain rfl := Option.some.inj h
      exact (List.perm_insertionSort _ _).mem_iff.2
        (List.mem_append.2 (Or.inr (List.mem_singleton.2 rfl)))

/-- C4 counterexample: with `main = M` (the export store path holding the
metadata) and the link `deps` table binding the main package `foo` to a
DIFFERENT store path `D`, the archive handed to the linker is `D/foo.a`,
not `M/foo.a`; and the serialized sentinel line points at
`D/command-line-arguments.a`, not at `<main>/<basename(packagePath)>.a`. -/
theorem link_sentinel_counterexample :
    linkDriver pkgEnvC4 (fun _ _ => none) "M" "foo" [("foo", "D")]
        = some ("D/foo.a", [⟨"D", "command-line-arguments"⟩])
      ∧ ("D/foo.a" : String) ≠ "M/foo.a"
      ∧ linkCfgLine ⟨"D", "command-line-arguments"⟩
          ≠ "packagefile command-line-arguments=M/foo.a" := by
  refine ⟨rfl, by decide, by decide⟩

/-- C4 (amended): on a successful link, the archive passed to the linker
is `<deps[packagePath]>/<basename(packagePath)>.a` where `deps` is the
link `deps` table — the `main` attribute is used only to locate the
metadata sidecar, and the link fails unless `deps` binds `packagePath` to
a non-empty store path.  The sentinel importcfg entry binds
`command-line-arguments` to that same `deps[packagePath]` store path, and
its serialized line points at
`<deps[packagePath]>/command-line-arguments.a` (the basename in the line
comes from the sentinel name, not from `packagePath`). -/
theorem link_sentinel (pkgEnv : String → String → Option Package)
    (metaEnv : String → String → Option MetaPackage)
    (mainAttr packagePath : String) (deps : SMap)
    (archive : String) (cfg : List Import)
    (h : linkDriver pkgEnv metaEnv mainAttr packagePath deps = some (archive, cfg)) :
    smapGet deps packagePath ≠ ""
      ∧ archive = smapGet deps packagePath ++ "/" ++ baseOf packagePath ++ ".a"
      ∧ (⟨smapGet deps packagePath, "command-line-arguments"⟩ : Import) ∈ cfg
      ∧ linkCfgLine ⟨smapGet deps packagePath, "command-line-arguments"⟩
          = "packagefile command-line-arguments=" ++ smapGet deps packagePath
              ++ "/command-line-arguments.a" := by
  unfold linkDriver at h
  cases hp : pkgEnv mainAttr packagePath with
  | none => rw [hp] at h; exact absurd h (by simp)
  | some main =>
    rw [hp] at h
    replace h : (if smapGet deps packagePath = "" then none
        else match linkImportCfgModel metaEnv ⟨packagePath, main.Imports, main.Deps⟩
            (smapGet deps packagePath) deps with
        | none => none
        | some cfg0 =>
            some (smapGet deps packagePath ++ "/" ++ baseOf packagePath ++ ".a", cfg0))
          = some (archive, cfg) := h
    by_cases hsp : smapGet deps packagePath = ""
    · rw [if_pos hsp] at h
      exact absurd h (by simp)
    · rw [if_neg hsp] at h
      cases hcfg : linkImportCfgModel metaEnv ⟨packagePath, main.Imports, main.Deps⟩
          (smapGet deps packagePath) deps with
      | none => rw [hcfg] at h; exact absurd h (by simp)
      | some cfg0 =>
        rw [hcfg] at h
        have hpair := Option.some.inj h
        have h1 : smapGet deps packagePath ++ "/" ++ baseOf packagePath ++ ".a" = archive :=
          congrArg Prod.fst hpair
        have h2 : cfg0 = cfg := congrArg Prod.snd hpair
        refine ⟨hsp, h1.symm, ?_, ?_⟩
        · rw [← h2]
          exact linkImportCfgModel_sentinel metaEnv ⟨packagePath, main.Imports, main.Deps⟩
            (smapGet deps packagePath) deps cfg0 hcfg
        · unfold linkCfgLine
          rw [show baseOf "command-line-arguments" = "command-line-arguments" from rfl,
            show ("packagefile " ++ "command-line-arguments" ++ "=" : String)
              = "packagefile command-line-arguments=" from rfl,
            String.append_assoc _ "/" "command-line-arguments",
            String.append_assoc _ ("/" ++ "command-line-arguments") ".a",
            String.append_assoc "/" "command-line-arguments" ".a"]
          rfl

/-- Witness for the amended C4 theorem at the concrete link above: the
archive equation and the sentinel membership instantiate. -/
theorem link_sentinel_witness :
    ("D/foo.a" : String)
        = smapGet [("foo", "D")] "foo" ++ "/" ++ baseOf "foo" ++ ".a"
      ∧ (⟨"D", "command-line-arguments"⟩ : Import)
          ∈ ([⟨"D", "command-line-arguments"⟩] : List Import) := by
  have h := link_sentinel pkgEnvC4 (fun _ _ => none) "M" "foo" [("foo", "D")]
    "D/foo.a" [⟨"D", "command-line-arguments"⟩] rfl
  exact ⟨h.2.1, h.2.2.1⟩

end GoPkg2Nix
